import Mathlib

/-!
Shallow embedding of the analytics core of `app/data.py`.

Dates are modelled as integers (days since an epoch); close prices as
rationals. A pandas `DataFrame` holding the price series is a
`List PriceRecord`; the Python sentinel `None` is `Option.none`; a pandas
`Series` of derived values is a list of `(date, value)` pairs.
-/

/-- One row of the price dataframe. The source carries `Open`, `High`,
`Low`, `Volume` columns as well, but the analytics core reads only
`Date` and `Close`, so only those are modelled. -/
structure PriceRecord where
  date : ℤ
  close : ℚ
deriving DecidableEq, Repr

/-- `df["Date"].min()` — minimum of the `Date` column (nonempty list;
the callers guard the empty case first). -/
def minDate : List PriceRecord → ℤ
  | [] => 0
  | r :: rs => rs.foldl (fun a x => min a x.date) r.date

/-- `df["Date"].max()` — maximum of the `Date` column. -/
def maxDate : List PriceRecord → ℤ
  | [] => 0
  | r :: rs => rs.foldl (fun a x => max a x.date) r.date

/-- `split_into_three(df)` from `app/data.py`: if `df is None or df.empty`
return the sentinel triple `(None, None, None)`, otherwise cut the date
span into exact thirds (`cut1 = start + total/3`, `cut2 = start +
2*total/3`, computed in ℚ, mirroring pandas' sub-day Timedelta
resolution) and filter by `date <= cut1`, `cut1 < date <= cut2`,
`date > cut2`, preserving row order. -/
def split_into_three (df : Option (List PriceRecord)) :
    Option (List PriceRecord) × Option (List PriceRecord) × Option (List PriceRecord) :=
  match df with
  | none => (none, none, none)
  | some [] => (none, none, none)
  | some l =>
    let start : ℚ := (minDate l : ℚ)
    let stop : ℚ := (maxDate l : ℚ)
    let total : ℚ := stop - start
    let cut1 : ℚ := start + total / 3
    let cut2 : ℚ := start + 2 * total / 3
    (some (l.filter fun r => (r.date : ℚ) ≤ cut1),
     some (l.filter fun r => cut1 < (r.date : ℚ) ∧ (r.date : ℚ) ≤ cut2),
     some (l.filter fun r => cut2 < (r.date : ℚ)))

/-! ### Calendar arithmetic

pandas timestamps use the proleptic Gregorian calendar. `toCivil`
converts a day count (epoch 1970-01-01) to `(year, month, day)` and
`fromCivil` back, following the standard civil-calendar algorithm; they
are needed to model `resample('Q')`, whose buckets are calendar
quarters labelled by their quarter-end date. -/

/-- Days since 1970-01-01 to `(year, month, day)` in the proleptic
Gregorian calendar. -/
def toCivil (z : ℤ) : ℤ × ℤ × ℤ :=
  let z' := z + 719468
  let era := (if 0 ≤ z' then z' else z' - 146096) / 146097
  let doe := z' - era * 146097
  let yoe := (doe - doe / 1460 + doe / 36524 - doe / 146096) / 365
  let y := yoe + era * 400
  let doy := doe - (365 * yoe + yoe / 4 - yoe / 100)
  let mp := (5 * doy + 2) / 153
  let d := doy - (153 * mp + 2) / 5 + 1
  let m := mp + (if mp < 10 then 3 else -9)
  (y + (if m ≤ 2 then 1 else 0), m, d)

/-- `(year, month, day)` to days since 1970-01-01. -/
def fromCivil (y m d : ℤ) : ℤ :=
  let y' := y - (if m ≤ 2 then 1 else 0)
  let era := (if 0 ≤ y' then y' else y' - 399) / 400
  let yoe := y' - era * 400
  let mp := m + (if 2 < m then -3 else 9)
  let doy := (153 * mp + 2) / 5 + d - 1
  let doe := yoe * 365 + yoe / 4 - yoe / 100 + doy
  era * 146097 + doe - 719468

/-- The calendar quarter containing a date, as a single integer
`4 * year + (month - 1) / 3`; this is the bucket key of
`resample('Q')`. -/
def quarterIdx (z : ℤ) : ℤ :=
  let c := toCivil z
  4 * c.1 + (c.2.1 - 1) / 3

/-- The last calendar day of quarter `q` (Mar 31 / Jun 30 / Sep 30 /
Dec 31) — the label `resample('Q')` gives the bucket. -/
def quarterEndDate (q : ℤ) : ℤ :=
  let y := q.fdiv 4
  let r := q.emod 4
  let m := 3 * r + 3
  let d : ℤ := if r = 0 ∨ r = 3 then 31 else 30
  fromCivil y m d

/-- The consecutive quarter keys `lo, lo+1, …, hi`; `resample('Q')`
creates one bucket per quarter between the index minimum and maximum,
including quarters holding no rows. -/
def bucketRange (lo hi : ℤ) : List ℤ :=
  (List.range (hi - lo + 1).toNat).map fun (i : ℕ) => lo + (i : ℤ)

/-- `resample('Q')['Close'].last()` for one bucket: the close of the
bucket's last row (`none` when the bucket is empty, modelling NaN). -/
def lastCloseIn (l : List PriceRecord) (q : ℤ) : Option ℚ :=
  ((l.filter fun r => quarterIdx r.date = q).map PriceRecord.close).getLast?

/-- Forward-fill (`fillna(method='pad')`): each `none` is replaced by
the most recent preceding value; leading `none`s stay `none`. -/
def ffill : Option ℚ → List (Option ℚ) → List (Option ℚ)
  | _, [] => []
  | prev, none :: rest => prev :: ffill prev rest
  | _, some x :: rest => some x :: ffill (some x) rest

/-- `Series.pct_change()` with its default `fill_method='pad'`: pad the
series, then `value[i] = filled[i] / filled[i-1] - 1`, with `none`
(NaN) at position 0 and wherever either operand is `none`. -/
def pctChangePad (l : List (Option ℚ)) : List (Option ℚ) :=
  let f := ffill none l
  match f with
  | [] => []
  | _ :: _ =>
    none :: (f.zip f.tail).map fun p =>
      match p.1, p.2 with
      | some a, some b => some (b / a - 1)
      | _, _ => none

/-- `quarterly_returns(df)` from `app/data.py`:
`df.set_index('Date').resample('Q')['Close'].last().pct_change().dropna()`.
The resample covers every quarter from the one containing the minimum
date to the one containing the maximum date; `.last()` leaves NaN in
empty buckets; `.pct_change()` forward-fills those NaNs before
differencing; `.dropna()` keeps only defined values. Output pairs are
labelled by quarter-end date. (A division by a zero close yields `0`
here where pandas yields `inf`; pandas keeps the point — `dropna`
ignores `inf` — and so does this model, so presence/absence of points
is unaffected.) -/
def quarterly_returns (df : Option (List PriceRecord)) : List (ℤ × ℚ) :=
  match df with
  | none => []
  | some [] => []
  | some (r :: rs) =>
    let l := r :: rs
    let buckets := bucketRange (quarterIdx (minDate l)) (quarterIdx (maxDate l))
    let pct := pctChangePad (buckets.map (lastCloseIn l))
    ((buckets.map quarterEndDate).zip pct).filterMap fun p =>
      p.2.map fun v => (p.1, v)

/-! ### Rolling-window analytics -/

/-- `s.sort_index()` on a date-indexed series. -/
def sortByDate (l : List PriceRecord) : List PriceRecord :=
  List.insertionSort (fun a b => a.date ≤ b.date) l

/-- The rows a pandas `rolling('180D')` window sees at date `d`: dates
in the half-open interval `(d - 180, d]` — for an offset window the
`closed` parameter defaults to `'right'`, so a row exactly 180 days
earlier is excluded. -/
def windowRecords (s : List PriceRecord) (d : ℤ) : List PriceRecord :=
  s.filter fun x => d - 180 < x.date ∧ x.date ≤ d

/-- Arithmetic mean of a list of rationals. -/
def meanQ (xs : List ℚ) : ℚ := xs.sum / (xs.length : ℚ)

/-- `ma180(df)` from `app/data.py`:
`df.set_index('Date')['Close'].sort_index().rolling('180D',
min_periods=1).mean().dropna()`. With `min_periods=1` every row's
window contains at least itself, so no NaN is produced and `dropna`
removes nothing; the model therefore emits one `(date, mean)` pair per
row. -/
def ma180 (df : Option (List PriceRecord)) : List (ℤ × ℚ) :=
  match df with
  | none => []
  | some [] => []
  | some (r :: rs) =>
    let s := sortByDate (r :: rs)
    s.map fun x => (x.date, meanQ ((windowRecords s x.date).map PriceRecord.close))

/-- `s.pct_change().dropna()` on the close series: one return per
consecutive pair of rows, labelled by the later row's date; the first
row contributes none. -/
def returnsOf (s : List PriceRecord) : List (ℤ × ℚ) :=
  (s.zip s.tail).map fun p => (p.2.date, p.2.close / p.1.close - 1)

/-- Sample variance (`ddof=1`) of a list of rationals; meaningful only
for two or more samples. -/
def sampleVar (xs : List ℚ) : ℚ :=
  let m := meanQ xs
  ((xs.map fun x => (x - m) ^ 2).sum) / ((xs.length : ℚ) - 1)

/-- `rolling('180D', min_periods=1).std()` at date `d` over the return
series: sample standard deviation of the returns dated in `(d - 180,
d]`; `none` (NaN) when the window holds fewer than two samples. -/
noncomputable def stdWindow (rets : List (ℤ × ℚ)) (d : ℤ) : Option ℝ :=
  let w := (rets.filter fun x => d - 180 < x.1 ∧ x.1 ≤ d).map Prod.snd
  if 2 ≤ w.length then some (Real.sqrt ((sampleVar w : ℚ) : ℝ)) else none

/-- `vol180(df, annualize=True)` from `app/data.py`: daily returns of
the sorted close series, their 180-day rolling sample standard
deviation, optionally scaled by `sqrt(252)`, then `dropna()`. The
scaling happens before the drop, as in the source (`vol = vol *
(252 ** 0.5)` precedes `return vol.dropna()`). -/
noncomputable def vol180 (df : Option (List PriceRecord)) (annualize : Bool) :
    List (ℤ × ℝ) :=
  match df with
  | none => []
  | some [] => []
  | some (r :: rs) =>
    let rets := returnsOf (sortByDate (r :: rs))
    let vols : List (ℤ × Option ℝ) := rets.map fun p => (p.1, stdWindow rets p.1)
    let vols2 := if annualize
      then vols.map fun p => (p.1, p.2.map fun x => x * Real.sqrt 252)
      else vols
    vols2.filterMap fun p => p.2.map fun x => (p.1, x)

/-! ### Spec-side definitions (for stating the claims, not from the
source) -/

/-- Number of distinct calendar quarters that contain at least one
record — the "nonempty quarter buckets" of the claims. -/
def nonemptyQuarterBuckets (l : List PriceRecord) : ℕ :=
  ((l.map fun r => quarterIdx r.date).dedup).length

/-- The spec's window for `ma180`, read literally: the closed interval
`[d - 180, d]`, including a record exactly 180 days before `d`. -/
def windowRecordsIncl (s : List PriceRecord) (d : ℤ) : List PriceRecord :=
  s.filter fun x => d - 180 ≤ x.date ∧ x.date ≤ d

/-- Every entry of the `Date` column is bounded below by `minDate`. -/
theorem minDate_le {l : List PriceRecord} {r : PriceRecord} (h : r ∈ l) :
    minDate l ≤ r.date := by
  match l with
  | [] => cases h
  | x :: xs =>
    show xs.foldl (fun a y => min a y.date) x.date ≤ r.date
    have key : ∀ (ys : List PriceRecord) (a : ℤ),
        (∀ s ∈ ys, (ys.foldl (fun b y => min b y.date) a) ≤ s.date) ∧
        (ys.foldl (fun b y => min b y.date) a) ≤ a := by
      intro ys
      induction ys with
      | nil => intro a; exact ⟨fun s hs => absurd hs (List.not_mem_nil s), le_refl a⟩
      | cons y ys ih =>
        intro a
        refine ⟨fun s hs => ?_, ?_⟩
        · rcases List.mem_cons.mp hs with h1 | h1
          · subst h1
            exact le_trans ((ih (min a s.date)).2) (min_le_right a s.date)
          · exact (ih (min a y.date)).1 s h1
        · exact le_trans ((ih (min a y.date)).2) (min_le_left a y.date)
    rcases List.mem_cons.mp h with h1 | h1
    · subst h1; exact (key xs r.date).2
    · exact (key xs x.date).1 r h1

/-- Every entry of the `Date` column is bounded above by `maxDate`. -/
theorem le_maxDate {l : List PriceRecord} {r : PriceRecord} (h : r ∈ l) :
    r.date ≤ maxDate l := by
  match l with
  | [] => cases h
  | x :: xs =>
    show r.date ≤ xs.foldl (fun a y => max a y.date) x.date
    have key : ∀ (ys : List PriceRecord) (a : ℤ),
        (∀ s ∈ ys, s.date ≤ (ys.foldl (fun b y => max b y.date) a)) ∧
        a ≤ (ys.foldl (fun b y => max b y.date) a) := by
      intro ys
      induction ys with
      | nil => intro a; exact ⟨fun s hs => absurd hs (List.not_mem_nil s), le_refl a⟩
      | cons y ys ih =>
        intro a
        refine ⟨fun s hs => ?_, ?_⟩
        · rcases List.mem_cons.mp hs with h1 | h1
          · subst h1
            exact le_trans (le_max_right a s.date) ((ih (max a s.date)).2)
          · exact (ih (max a y.date)).1 s h1
        · exact le_trans (le_max_left a y.date) ((ih (max a y.date)).2)
    rcases List.mem_cons.mp h with h1 | h1
    · subst h1; exact (key xs r.date).2
    · exact (key xs x.date).1 r h1

/-- `minDate` is attained by some record of a nonempty list. -/
theorem minDate_mem {l : List PriceRecord} (h : l ≠ []) :
    ∃ r ∈ l, r.date = minDate l := by
  match l with
  | [] => exact absurd rfl h
  | x :: xs =>
    show ∃ r ∈ x :: xs, r.date = xs.foldl (fun a y => min a y.date) x.date
    have key : ∀ (ys : List PriceRecord) (a : ℤ),
        (ys.foldl (fun b y => min b y.date) a) = a ∨
        ∃ s ∈ ys, s.date = (ys.foldl (fun b y => min b y.date) a) := by
      intro ys
      induction ys with
      | nil => intro a; exact Or.inl rfl
      | cons y ys ih =>
        intro a
        rcases ih (min a y.date) with h1 | h1
        · rcases le_total a y.date with h2 | h2
          · left; rw [List.foldl_cons, h1]; exact min_eq_left h2
          · right
            exact ⟨y, List.mem_cons_self y ys,
              by rw [List.foldl_cons, h1]; exact (min_eq_right h2).symm⟩
        · right
          obtain ⟨s, hs, hval⟩ := h1
          exact ⟨s, List.mem_cons_of_mem y hs, hval⟩
    rcases key xs x.date with h1 | h1
    · exact ⟨x, List.mem_cons_self x xs, h1.symm⟩
    · obtain ⟨s, hs, hval⟩ := h1
      exact ⟨s, List.mem_cons_of_mem x hs, hval⟩

/-- Exactly one of the three partition-membership conditions holds for
any date, given `cut1 ≤ cut2`. -/
theorem cut_trichotomy (d c1 c2 : ℚ) (hc : c1 ≤ c2) :
    (d ≤ c1 ∧ ¬(c1 < d ∧ d ≤ c2) ∧ ¬c2 < d) ∨
    (¬d ≤ c1 ∧ (c1 < d ∧ d ≤ c2) ∧ ¬c2 < d) ∨
    (¬d ≤ c1 ∧ ¬(c1 < d ∧ d ≤ c2) ∧ c2 < d) := by
  rcases le_or_lt d c1 with h1 | h1
  · exact Or.inl ⟨h1, fun h => absurd h1 (not_le.mpr h.1), not_lt.mpr (le_trans h1 hc)⟩
  · rcases le_or_lt d c2 with h2 | h2
    · exact Or.inr (Or.inl ⟨not_le.mpr h1, ⟨h1, h2⟩, not_lt.mpr h2⟩)
    · exact Or.inr (Or.inr ⟨not_le.mpr h1, fun h => absurd h.2 (not_le.mpr h2), h2⟩)

/-- Three filters by mutually exclusive, jointly exhaustive predicates
have lengths summing to the whole list. -/
theorem length_filter_three {α : Type} (p q s : α → Bool) (l : List α)
    (h : ∀ x ∈ l,
      (p x = true ∧ q x = false ∧ s x = false) ∨
      (p x = false ∧ q x = true ∧ s x = false) ∨
      (p x = false ∧ q x = false ∧ s x = true)) :
    (l.filter p).length + (l.filter q).length + (l.filter s).length = l.length := by
  induction l with
  | nil => rfl
  | cons x xs ih =>
    have hx := h x (List.mem_cons_self x xs)
    have hrest : ∀ y ∈ xs, _ := fun y hy => h y (List.mem_cons_of_mem x hy)
    have ih' := ih hrest
    rcases hx with ⟨h1, h2, h3⟩ | ⟨h1, h2, h3⟩ | ⟨h1, h2, h3⟩ <;>
      simp [List.filter_cons, h1, h2, h3] <;> omega

/-- **C2, counterexample.** On the empty series, `split_into_three`
does not return three empty partitions: it returns the sentinel triple
`(None, None, None)`. -/
theorem C2_counterexample :
    split_into_three (some []) ≠
      (some ([] : List PriceRecord), some [], some []) := by
  decide

/-- **C2, amended.** On the empty series, `split_into_three` returns
the sentinel triple `(None, None, None)` (not three empty partitions),
and each analytics function applied to an empty input returns an empty
series without raising. -/
theorem C2_empty_input :
    split_into_three (some []) = (none, none, none) ∧
    quarterly_returns (some []) = [] ∧
    ma180 (some []) = [] ∧
    vol180 (some []) true = [] ∧
    vol180 (some []) false = [] :=
  ⟨rfl, rfl, rfl, rfl, rfl⟩

/-- **C9.** Each analytics function maps the `None` sentinel to an
empty series, and `split_into_three` of an empty series yields the
`None` sentinel for all three partitions, so the composition of any
analytics function with the partitioner on an empty input is empty
rather than an error. -/
theorem C9_none_sentinel :
    quarterly_returns none = [] ∧
    ma180 none = [] ∧
    vol180 none true = [] ∧
    vol180 none false = [] ∧
    split_into_three none = (none, none, none) ∧
    split_into_three (some []) = (none, none, none) :=
  ⟨rfl, rfl, rfl, rfl, rfl, rfl⟩

/-- **C8.** A single-record series of date `d` partitions as
`Part1 = [record]`, `Part2 = []`, `Part3 = []`: with zero span both cut
points equal `d` and the `date ≤ cut1` rule captures the record. -/
theorem C8_single_record (d : ℤ) (c : ℚ) :
    split_into_three (some [⟨d, c⟩]) = (some [⟨d, c⟩], some [], some []) := by
  simp only [split_into_three, minDate, maxDate, List.foldl_nil]
  norm_num [List.filter_cons]

/-- **C4.** For every nonempty series, `split_into_three` yields three
real (non-sentinel) partitions whose lengths sum to the input length,
and every input record lies in exactly one of them, membership being
decided by `date ≤ cut1`, `cut1 < date ≤ cut2`, `date > cut2` with
`cut1 = start + span/3`, `cut2 = start + 2·span/3`. -/
theorem C4_partition_complete (l : List PriceRecord) (h : l ≠ []) :
    ∃ a b c, split_into_three (some l) = (some a, some b, some c) ∧
      a.length + b.length + c.length = l.length ∧
      ∀ r ∈ l,
        (r ∈ a ∧ r ∉ b ∧ r ∉ c) ∨
        (r ∉ a ∧ r ∈ b ∧ r ∉ c) ∨
        (r ∉ a ∧ r ∉ b ∧ r ∈ c) := by
  obtain ⟨x, xs, rfl⟩ := List.exists_cons_of_ne_nil h
  set l := x :: xs with hl
  set start : ℚ := (minDate l : ℚ) with hstart
  set stop : ℚ := (maxDate l : ℚ) with hstop
  set cut1 : ℚ := start + (stop - start) / 3 with hcut1
  set cut2 : ℚ := start + 2 * (stop - start) / 3 with hcut2
  have hspan : start ≤ stop := by
    have h1 : minDate l ≤ x.date := minDate_le (List.mem_cons_self x xs)
    have h2 : x.date ≤ maxDate l := le_maxDate (List.mem_cons_self x xs)
    rw [hstart, hstop]
    exact_mod_cast le_trans h1 h2
  have hcuts : cut1 ≤ cut2 := by
    rw [hcut1, hcut2]; linarith
  have tri : ∀ r : PriceRecord,
      ((r.date : ℚ) ≤ cut1 ∧ ¬(cut1 < (r.date : ℚ) ∧ (r.date : ℚ) ≤ cut2) ∧
        ¬cut2 < (r.date : ℚ)) ∨
      (¬(r.date : ℚ) ≤ cut1 ∧ (cut1 < (r.date : ℚ) ∧ (r.date : ℚ) ≤ cut2) ∧
        ¬cut2 < (r.date : ℚ)) ∨
      (¬(r.date : ℚ) ≤ cut1 ∧ ¬(cut1 < (r.date : ℚ) ∧ (r.date : ℚ) ≤ cut2) ∧
        cut2 < (r.date : ℚ)) :=
    fun r => cut_trichotomy (r.date : ℚ) cut1 cut2 hcuts
  refine ⟨l.filter fun r => (r.date : ℚ) ≤ cut1,
    l.filter fun r => cut1 < (r.date : ℚ) ∧ (r.date : ℚ) ≤ cut2,
    l.filter fun r => cut2 < (r.date : ℚ), ?_, ?_, ?_⟩
  · rw [hl]; rfl
  · refine length_filter_three _ _ _ l fun r _ => ?_
    rcases tri r with ⟨h1, h2, h3⟩ | ⟨h1, h2, h3⟩ | ⟨h1, h2, h3⟩
    · exact Or.inl ⟨by simpa using h1, by simpa using h2, by simpa using h3⟩
    · exact Or.inr (Or.inl ⟨by simpa using h1, by simpa using h2, by simpa using h3⟩)
    · exact Or.inr (Or.inr ⟨by simpa using h1, by simpa using h2, by simpa using h3⟩)
  · intro r hr
    rcases tri r with ⟨h1, h2, h3⟩ | ⟨h1, h2, h3⟩ | ⟨h1, h2, h3⟩
    · exact Or.inl ⟨List.mem_filter.mpr ⟨hr, by simpa using h1⟩,
        fun hm => h2 (by simpa using (List.mem_filter.mp hm).2),
        fun hm => h3 (by simpa using (List.mem_filter.mp hm).2)⟩
    · exact Or.inr (Or.inl ⟨fun hm => h1 (by simpa using (List.mem_filter.mp hm).2),
        List.mem_filter.mpr ⟨hr, by simpa using h2⟩,
        fun hm => h3 (by simpa using (List.mem_filter.mp hm).2)⟩)
    · exact Or.inr (Or.inr ⟨fun hm => h1 (by simpa using (List.mem_filter.mp hm).2),
        fun hm => h2 (by simpa using (List.mem_filter.mp hm).2),
        List.mem_filter.mpr ⟨hr, by simpa using h3⟩⟩)

/-- **C4, witness.** The partition property instantiated on a concrete
three-record series. -/
theorem C4_witness :
    ([⟨0, 1⟩, ⟨5, 2⟩, ⟨9, 3⟩] : List PriceRecord) ≠ [] ∧
    (∃ a b c,
      split_into_three (some [⟨0, 1⟩, ⟨5, 2⟩, ⟨9, 3⟩]) = (some a, some b, some c) ∧
      a.length + b.length + c.length = ([⟨0, 1⟩, ⟨5, 2⟩, ⟨9, 3⟩] : List PriceRecord).length ∧
      ∀ r ∈ ([⟨0, 1⟩, ⟨5, 2⟩, ⟨9, 3⟩] : List PriceRecord),
        (r ∈ a ∧ r ∉ b ∧ r ∉ c) ∨
        (r ∉ a ∧ r ∈ b ∧ r ∉ c) ∨
        (r ∉ a ∧ r ∉ b ∧ r ∈ c)) :=
  ⟨by decide, C4_partition_complete _ (by decide)⟩

/-- **C6.** `ma180` yields exactly one output point per input record:
with `min_periods=1` each record's own window is nonempty, so nothing
is dropped and the output length equals the input length. -/
theorem C6_ma180_length (l : List PriceRecord) (h : l ≠ []) :
    (ma180 (some l)).length = l.length := by
  obtain ⟨x, xs, rfl⟩ := List.exists_cons_of_ne_nil h
  show (List.map _ (sortByDate (x :: xs))).length = (x :: xs).length
  rw [List.length_map]
  exact List.length_insertionSort _ _

/-- **C6, witness.** The length invariant on a concrete two-record
series. -/
theorem C6_witness :
    ([⟨0, 10⟩, ⟨1, 20⟩] : List PriceRecord) ≠ [] ∧
    (ma180 (some [⟨0, 10⟩, ⟨1, 20⟩])).length = 2 :=
  ⟨by decide, C6_ma180_length [⟨0, 10⟩, ⟨1, 20⟩] (by decide)⟩

/-- **C3, counterexample.** The `rolling('180D')` window is left-open:
for closes `[10, 20]` at dates `0` and `180`, the output value at date
`180` is `20` (the record at date `0`, exactly 180 days earlier, is
excluded), while the claim's inclusive window `[d-180, d]` would give
the mean `15`. -/
theorem C3_counterexample :
    ma180 (some [⟨0, 10⟩, ⟨180, 20⟩]) = [((0 : ℤ), (10 : ℚ)), (180, 20)] ∧
    meanQ ((windowRecordsIncl [⟨0, 10⟩, ⟨180, 20⟩] 180).map PriceRecord.close) = 15 ∧
    ((180 : ℤ), (15 : ℚ)) ∉ ma180 (some [⟨0, 10⟩, ⟨180, 20⟩]) := by
  refine ⟨?_, ?_, ?_⟩ <;>
    norm_num [ma180, sortByDate, List.insertionSort, List.orderedInsert,
      windowRecords, windowRecordsIncl, meanQ, List.filter]

/-- **C3, amended.** For a strictly date-sorted partition, `ma180`
reports at each record's date the arithmetic mean of the closes dated
in the half-open calendar interval `(d - 180, d]` — a record exactly
180 days earlier is excluded; the spec's example values (30 at
`day0+200`, 15 at `day0+1`) are unchanged. -/
theorem C3_ma180_window (l : List PriceRecord)
    (hs : l.Pairwise fun a b => a.date < b.date) (r : PriceRecord) (hr : r ∈ l) :
    (r.date, meanQ ((windowRecords l r.date).map PriceRecord.close)) ∈
      ma180 (some l) := by
  obtain ⟨x, xs, rfl⟩ := List.exists_cons_of_ne_nil (List.ne_nil_of_mem hr)
  have hsorted : List.Sorted (fun a b : PriceRecord => a.date ≤ b.date) (x :: xs) :=
    hs.imp fun hab => le_of_lt hab
  have hid : sortByDate (x :: xs) = x :: xs := hsorted.insertionSort_eq
  show _ ∈ (sortByDate (x :: xs)).map _
  rw [hid]
  exact List.mem_map.mpr ⟨r, hr, rfl⟩

/-- **C3, witness.** The amended window rule instantiated on the
spec's own example: closes `[10, 20, 30]` at dates `day0, day0+1,
day0+200` give `30` at `day0+200` and `15` at `day0+1`. -/
theorem C3_witness :
    ([⟨0, 10⟩, ⟨1, 20⟩, ⟨200, 30⟩] : List PriceRecord).Pairwise
      (fun a b => a.date < b.date) ∧
    meanQ ((windowRecords [⟨0, 10⟩, ⟨1, 20⟩, ⟨200, 30⟩] 200).map PriceRecord.close)
      = 30 ∧
    meanQ ((windowRecords [⟨0, 10⟩, ⟨1, 20⟩, ⟨200, 30⟩] 1).map PriceRecord.close)
      = 15 ∧
    ((200 : ℤ), (30 : ℚ)) ∈ ma180 (some [⟨0, 10⟩, ⟨1, 20⟩, ⟨200, 30⟩]) ∧
    ((1 : ℤ), (15 : ℚ)) ∈ ma180 (some [⟨0, 10⟩, ⟨1, 20⟩, ⟨200, 30⟩]) := by
  refine ⟨by decide, by norm_num [meanQ, windowRecords, List.filter],
    by norm_num [meanQ, windowRecords, List.filter], ?_, ?_⟩
  · have h := C3_ma180_window [⟨0, 10⟩, ⟨1, 20⟩, ⟨200, 30⟩] (by decide)
      ⟨200, 30⟩ (by decide)
    have hv : meanQ ((windowRecords [⟨0, 10⟩, ⟨1, 20⟩, ⟨200, 30⟩] 200).map
        PriceRecord.close) = 30 := by norm_num [meanQ, windowRecords, List.filter]
    rwa [hv] at h
  · have h := C3_ma180_window [⟨0, 10⟩, ⟨1, 20⟩, ⟨200, 30⟩] (by decide)
      ⟨1, 20⟩ (by decide)
    have hv : meanQ ((windowRecords [⟨0, 10⟩, ⟨1, 20⟩, ⟨200, 30⟩] 1).map
        PriceRecord.close) = 15 := by norm_num [meanQ, windowRecords, List.filter]
    rwa [hv] at h

/-- `returnsOf` yields one point fewer than the price series. -/
theorem returnsOf_length (s : List PriceRecord) :
    (returnsOf s).length = s.length - 1 := by
  unfold returnsOf
  rw [List.length_map, List.length_zip, List.length_tail]
  omega

/-- A rolling window over at most one return sample has no defined
sample standard deviation. -/
theorem stdWindow_none_of_short {rets : List (ℤ × ℚ)} (h : rets.length ≤ 1)
    (d : ℤ) : stdWindow rets d = none := by
  unfold stdWindow
  rw [if_neg]
  intro hw
  have hle := List.length_filter_le
    (fun x : ℤ × ℚ => decide (d - 180 < x.1 ∧ x.1 ≤ d)) rets
  rw [List.length_map] at hw
  omega

/-- If a date appears in the output of `vol180`, its window over the
return series holds at least two samples. -/
theorem vol180_date_isSome {l : List PriceRecord} {b : Bool} {d : ℤ}
    (hd : d ∈ (vol180 (some l) b).map Prod.fst) :
    2 ≤ ((returnsOf (sortByDate l)).filter fun x =>
        d - 180 < x.1 ∧ x.1 ≤ d).length := by
  match l with
  | [] => cases b <;> simp [vol180] at hd
  | r :: rs =>
    set rets := returnsOf (sortByDate (r :: rs)) with hrets
    obtain ⟨q, hq, hq1⟩ := List.mem_map.mp hd
    have key : ∃ x ∈ rets, x.1 = d ∧ (stdWindow rets x.1).isSome := by
      cases b with
      | false =>
        obtain ⟨p, hp, hgp⟩ := List.mem_filterMap.mp hq
        obtain ⟨x, hx, rfl⟩ := List.mem_map.mp hp
        match ho : stdWindow rets x.1 with
        | none => rw [ho] at hgp; cases hgp
        | some v =>
          rw [ho] at hgp
          cases hgp
          exact ⟨x, hx, hq1, by rw [ho]; rfl⟩
      | true =>
        obtain ⟨p, hp, hgp⟩ := List.mem_filterMap.mp hq
        obtain ⟨p', hp', rfl⟩ := List.mem_map.mp hp
        obtain ⟨x, hx, rfl⟩ := List.mem_map.mp hp'
        match ho : stdWindow rets x.1 with
        | none => rw [ho] at hgp; cases hgp
        | some v =>
          rw [ho] at hgp
          cases hgp
          exact ⟨x, hx, hq1, by rw [ho]; rfl⟩
    obtain ⟨x, hx, hxd, hsome⟩ := key
    rw [hxd] at hsome
    unfold stdWindow at hsome
    by_contra hlt
    rw [if_neg] at hsome
    · cases hsome
    · rw [List.length_map]
      exact hlt

/-- **C5.** A date whose 180-day window (even read inclusively, as the
spec does) holds fewer than two return samples never appears in the
output of `vol180`, for either annualize flag: the sample standard
deviation is undefined there and the point is dropped, not nulled or
zeroed. -/
theorem C5_vol180_insufficient (l : List PriceRecord) (b : Bool) (d : ℤ)
    (h : ((returnsOf (sortByDate l)).filter fun x =>
        d - 180 ≤ x.1 ∧ x.1 ≤ d).length < 2) :
    d ∉ (vol180 (some l) b).map Prod.fst := by
  intro hd
  have h2 := vol180_date_isSome hd
  have hsub := List.monotone_filter_right (returnsOf (sortByDate l))
    (p := fun x : ℤ × ℚ => decide (d - 180 < x.1 ∧ x.1 ≤ d))
    (q := fun x : ℤ × ℚ => decide (d - 180 ≤ x.1 ∧ x.1 ≤ d))
    (fun x hx => by
      simp only [decide_eq_true_eq] at hx ⊢
      exact ⟨le_of_lt hx.1, hx.2⟩)
  have := hsub.length_le
  omega

/-- **C5, witness.** A two-record series has a single return sample, so
its return date is absent from the volatility output. -/
theorem C5_witness :
    ((returnsOf (sortByDate [⟨0, 10⟩, ⟨1, 20⟩])).filter fun x =>
        (1 : ℤ) - 180 ≤ x.1 ∧ x.1 ≤ 1).length < 2 ∧
    (1 : ℤ) ∉ (vol180 (some [⟨0, 10⟩, ⟨1, 20⟩]) true).map Prod.fst :=
  ⟨by decide, C5_vol180_insufficient [⟨0, 10⟩, ⟨1, 20⟩] true 1 (by decide)⟩

/-- **C10.** On fewer than three records, `vol180` is empty for either
annualize flag: at most one return sample exists, so every window has
an undefined sample standard deviation and every point is dropped. -/
theorem C10_vol180_short (l : List PriceRecord) (b : Bool) (h : l.length < 3) :
    vol180 (some l) b = [] := by
  match l with
  | [] => cases b <;> rfl
  | r :: rs =>
    have hshort : (returnsOf (sortByDate (r :: rs))).length ≤ 1 := by
      have h1 : (sortByDate (r :: rs)).length = (r :: rs).length :=
        List.length_insertionSort _ _
      have h2 := returnsOf_length (sortByDate (r :: rs))
      simp only [List.length_cons] at h h1 ⊢
      omega
    set rets := returnsOf (sortByDate (r :: rs)) with hrets
    show List.filterMap _ (if b = true then _ else _) = []
    apply List.filterMap_eq_nil_iff.mpr
    intro p hp
    have hnone : p.2 = none := by
      cases b with
      | false =>
        simp only [if_neg Bool.false_ne_true] at hp
        obtain ⟨x, _, rfl⟩ := List.mem_map.mp hp
        exact stdWindow_none_of_short hshort x.1
      | true =>
        simp only [if_pos rfl] at hp
        obtain ⟨p', hp', rfl⟩ := List.mem_map.mp hp
        obtain ⟨x, _, rfl⟩ := List.mem_map.mp hp'
        rw [stdWindow_none_of_short hshort x.1]
        rfl
    rw [hnone]
    rfl

/-- **C10, witness.** A two-record series yields an empty volatility
series. -/
theorem C10_witness :
    ([⟨0, 10⟩, ⟨1, 20⟩] : List PriceRecord).length < 3 ∧
    vol180 (some [⟨0, 10⟩, ⟨1, 20⟩]) true = [] :=
  ⟨by decide, C10_vol180_short [⟨0, 10⟩, ⟨1, 20⟩] true (by decide)⟩

/-- Annualization commutes with the NaN-drop: scaling each defined
value by a constant before `dropna` equals dropping first and scaling
the surviving points. -/
theorem filterMap_annualize (c : ℝ) (v : List (ℤ × Option ℝ)) :
    ((v.map fun p => (p.1, p.2.map fun x => x * c)).filterMap fun p =>
        p.2.map fun x => (p.1, x)) =
      ((v.filterMap fun p => p.2.map fun x => (p.1, x)).map fun q =>
        (q.1, q.2 * c)) := by
  induction v with
  | nil => rfl
  | cons p v ih =>
    obtain ⟨a, o⟩ := p
    cases o <;> simp [List.filterMap_cons, ih]

/-- **C7.** For a nonempty series of at least three records,
`vol180(p, annualize=True)` equals `vol180(p, annualize=False)` scaled
pointwise by `√252`, with identical dates. -/
theorem C7_vol180_annualize (l : List PriceRecord) (h1 : l ≠ [])
    (h2 : 3 ≤ l.length) :
    vol180 (some l) true =
      (vol180 (some l) false).map fun q => (q.1, q.2 * Real.sqrt 252) := by
  obtain ⟨x, xs, rfl⟩ := List.exists_cons_of_ne_nil h1
  exact filterMap_annualize (Real.sqrt 252) _

/-- **C7, witness.** The annualization identity instantiated on a
concrete three-record series. -/
theorem C7_witness :
    ([⟨0, 10⟩, ⟨1, 20⟩, ⟨2, 25⟩] : List PriceRecord) ≠ [] ∧
    3 ≤ ([⟨0, 10⟩, ⟨1, 20⟩, ⟨2, 25⟩] : List PriceRecord).length ∧
    vol180 (some [⟨0, 10⟩, ⟨1, 20⟩, ⟨2, 25⟩]) true =
      (vol180 (some [⟨0, 10⟩, ⟨1, 20⟩, ⟨2, 25⟩]) false).map fun q =>
        (q.1, q.2 * Real.sqrt 252) :=
  ⟨by decide, by decide,
    C7_vol180_annualize [⟨0, 10⟩, ⟨1, 20⟩, ⟨2, 25⟩] (by decide) (by decide)⟩

/-- Forward-filling preserves length. -/
theorem ffill_length (prev : Option ℚ) (l : List (Option ℚ)) :
    (ffill prev l).length = l.length := by
  induction l generalizing prev with
  | nil => rfl
  | cons y ys ih => cases y <;> simp [ffill, ih]

/-- Forward-filling from a defined seed leaves no gap. -/
theorem ffill_all_isSome (c : ℚ) (l : List (Option ℚ)) :
    ∀ y ∈ ffill (some c) l, y.isSome := by
  induction l generalizing c with
  | nil => intro y hy; cases hy
  | cons z zs ih =>
    intro y hy
    cases z with
    | none =>
      rcases List.mem_cons.mp hy with h | h
      · rw [h]; rfl
      · exact ih c y h
    | some w =>
      rcases List.mem_cons.mp hy with h | h
      · rw [h]; rfl
      · exact ih w y h

/-- `pct_change` preserves length (one NaN slot replaces the lost
first difference). -/
theorem pctChangePad_length (l : List (Option ℚ)) :
    (pctChangePad l).length = l.length := by
  have hlen := ffill_length none l
  unfold pctChangePad
  rcases hm : ffill none l with _ | ⟨a, f⟩
  · rw [hm] at hlen
    simpa using hlen
  · rw [hm] at hlen
    simp only [List.length_cons, List.length_map, List.length_zip,
      List.length_tail, List.length_cons] at hlen ⊢
    omega

/-- When the series starts with a defined value, `pct_change` produces
a defined value at every later position: the count of defined outputs
is the input length minus one. -/
theorem pctChangePad_countP (c : ℚ) (t : List (Option ℚ)) :
    (pctChangePad (some c :: t)).countP Option.isSome = t.length := by
  have hf : ffill none (some c :: t) = some c :: ffill (some c) t := rfl
  have hsome : ∀ y ∈ some c :: ffill (some c) t, y.isSome := by
    intro y hy
    rcases List.mem_cons.mp hy with h | h
    · rw [h]; rfl
    · exact ffill_all_isSome c t y h
  show ((pctChangePad (some c :: t)).countP Option.isSome) = t.length
  unfold pctChangePad
  rw [hf]
  rw [List.countP_cons]
  simp only [Option.isSome_none, Bool.false_eq_true, if_false, add_zero,
    cond_false]
  have hall : ∀ a ∈ ((some c :: ffill (some c) t).zip
      (some c :: ffill (some c) t).tail).map (fun p =>
        match p.1, p.2 with
        | some a, some b => some (b / a - 1)
        | _, _ => (none : Option ℚ)), a.isSome := by
    intro a ha
    obtain ⟨⟨u, v⟩, huv, rfl⟩ := List.mem_map.mp ha
    have hu : u.isSome := hsome u (List.of_mem_zip huv).1
    have hv : v.isSome :=
      hsome v (List.mem_of_mem_tail (List.of_mem_zip huv).2)
    obtain ⟨u', rfl⟩ := Option.isSome_iff_exists.mp hu
    obtain ⟨v', rfl⟩ := Option.isSome_iff_exists.mp hv
    rfl
  rw [List.countP_eq_length.mpr hall]
  rw [List.length_map, List.length_zip, List.length_tail]
  simp [ffill_length]

/-- Zipping labels with values of equal length and dropping the
undefined values yields one output per defined value. -/
theorem length_filterMap_zip (xs : List ℤ) (ys : List (Option ℚ))
    (h : xs.length = ys.length) :
    ((xs.zip ys).filterMap fun p => p.2.map fun v => (p.1, v)).length =
      ys.countP Option.isSome := by
  induction xs generalizing ys with
  | nil =>
    cases ys with
    | nil => rfl
    | cons y ys => cases h
  | cons x xs ih =>
    cases ys with
    | nil => cases h
    | cons y ys =>
      have h' : xs.length = ys.length := by simpa using h
      cases y with
      | none => simp [List.filterMap_cons, List.countP_cons, ih ys h']
      | some v => simp [List.filterMap_cons, List.countP_cons, ih ys h']

/-- An empty quarter range when the high key is below the low key. -/
theorem bucketRange_nil {lo hi : ℤ} (h : hi < lo) : bucketRange lo hi = [] := by
  unfold bucketRange
  have h0 : (hi - lo + 1).toNat = 0 := by omega
  rw [h0]
  rfl

/-- A nonempty quarter range starts at its low key, with
`(hi - lo)` further buckets. -/
theorem bucketRange_cons {lo hi : ℤ} (h : lo ≤ hi) :
    ∃ rest : List ℤ, bucketRange lo hi = lo :: rest ∧
      rest.length = (hi - lo).toNat := by
  unfold bucketRange
  have h1 : (hi - lo + 1).toNat = (hi - lo).toNat + 1 := by omega
  rw [h1, List.range_succ_eq_map, List.map_cons, List.map_map]
  refine ⟨(List.range (hi - lo).toNat).map fun (i : ℕ) => lo + ((i : ℤ) + 1), ?_,
    by simp⟩
  refine congrArg₂ _ (by simp) (List.map_congr_left fun i _ => ?_)
  show lo + ((i + 1 : ℕ) : ℤ) = lo + ((i : ℤ) + 1)
  push_cast
  ring

/-- Core count for the resample-then-pct-change pipeline: when some
record occupies the low quarter, the output has one point per bucket
after the first — empty interior quarters included, since the forward
fill gives them a defined (zero-change) value. -/
theorem resample_count (l : List PriceRecord) (qlo qhi : ℤ)
    (hlo : ∃ r ∈ l, quarterIdx r.date = qlo) :
    ((((bucketRange qlo qhi).map quarterEndDate).zip
        (pctChangePad ((bucketRange qlo qhi).map (lastCloseIn l)))).filterMap
          fun p => p.2.map fun v => (p.1, v)).length = (qhi - qlo).toNat := by
  rcases lt_or_le qhi qlo with hcase | hcase
  · rw [bucketRange_nil hcase]
    show (([] : List (ℤ × ℚ)).length) = (qhi - qlo).toNat
    simp
    omega
  · obtain ⟨rest, hb, hrl⟩ := bucketRange_cons hcase
    obtain ⟨r0, hr0, hq0⟩ := hlo
    have hmem : r0.close ∈ (l.filter fun r => quarterIdx r.date = qlo).map
        PriceRecord.close :=
      List.mem_map_of_mem _ (List.mem_filter.mpr ⟨hr0, by simp [hq0]⟩)
    obtain ⟨c, hc2⟩ : ∃ c, lastCloseIn l qlo = some c := by
      unfold lastCloseIn
      rcases ho : ((l.filter fun r => quarterIdx r.date = qlo).map
          PriceRecord.close).getLast? with _ | c
      · exact absurd (List.getLast?_eq_none_iff.mp ho)
          (List.ne_nil_of_mem hmem)
      · exact ⟨c, ho⟩
    rw [hb, List.map_cons, List.map_cons, hc2]
    rw [length_filterMap_zip]
    · rw [pctChangePad_countP, List.length_map, hrl]
    · rw [pctChangePad_length]
      simp

/-- **C1, counterexample.** For closes `[10, 30]` at 1970-01-01 and
1970-07-20 there are two nonempty quarter buckets (Q1 and Q3), so the
claim predicts one output point; the code produces two — the empty Q2
bucket is forward-filled and contributes a `0.0` sample. -/
theorem C1_counterexample :
    (quarterly_returns (some [⟨0, 10⟩, ⟨200, 30⟩])).length ≠
      nonemptyQuarterBuckets [⟨0, 10⟩, ⟨200, 30⟩] - 1 := by
  decide

/-- **C1, amended.** The number of output points of `quarterly_returns`
equals the number of quarter buckets spanned from the first record's
quarter to the last record's quarter, minus one: a spanned quarter with
no records still contributes a sample (its last close is forward-filled
from the previous quarter, giving a zero percent change), rather than
being skipped. -/
theorem C1_quarterly_count (l : List PriceRecord) (h : l ≠ []) :
    (quarterly_returns (some l)).length =
      (quarterIdx (maxDate l) - quarterIdx (minDate l)).toNat := by
  obtain ⟨x, xs, rfl⟩ := List.exists_cons_of_ne_nil h
  have hlo : ∃ r ∈ x :: xs, quarterIdx r.date = quarterIdx (minDate (x :: xs)) := by
    obtain ⟨r0, hr0, hd⟩ := minDate_mem (l := x :: xs) (List.cons_ne_nil x xs)
    exact ⟨r0, hr0, by rw [hd]⟩
  simpa only [quarterly_returns] using
    resample_count (x :: xs) (quarterIdx (minDate (x :: xs)))
      (quarterIdx (maxDate (x :: xs))) hlo

/-- **C1, witness.** The corrected count on the counterexample series:
two records three quarters apart give two output points. -/
theorem C1_witness :
    ([⟨0, 10⟩, ⟨200, 30⟩] : List PriceRecord) ≠ [] ∧
    (quarterly_returns (some [⟨0, 10⟩, ⟨200, 30⟩])).length =
      (quarterIdx (maxDate [⟨0, 10⟩, ⟨200, 30⟩]) -
        quarterIdx (minDate [⟨0, 10⟩, ⟨200, 30⟩])).toNat :=
  ⟨by decide, C1_quarterly_count [⟨0, 10⟩, ⟨200, 30⟩] (by decide)⟩
